import Mathlib

/-!
Verification of the page-to-chunk semantic merger
(`src/scripts/chunk_text/snow_chunk.py`).

A text is shallowly embedded as a `List Char`.  Every definition below
mirrors one Python function of the source file; the chunk accumulator of
`build_chunks` is kept in reverse order (most recent chunk first) and
reversed once at the end, mirroring Python's append-at-the-end list.
-/

namespace SnowChunk

/-- A text is modelled as its list of characters. -/
abbrev Text := List Char

/-- Whitespace as stripped by Python `str.strip()` (the ASCII whitespace
characters; Python additionally strips other Unicode whitespace, which no
claim here depends on). -/
def isSpace (c : Char) : Bool :=
  c = ' ' || c = '\t' || c = '\n' || c = '\r' || c = '\x0b' || c = '\x0c'

/-- Python `str.lstrip()`. -/
def lstrip (t : Text) : Text := t.dropWhile isSpace

/-- Python `str.rstrip()`. -/
def rstrip (t : Text) : Text := (t.reverse.dropWhile isSpace).reverse

/-- Python `str.strip()` (strip both ends). -/
def strip (t : Text) : Text := lstrip (rstrip t)

/-- Core of `re.split(r'\n{2,}', text)`: cut the text at every maximal run
of two or more consecutive newline characters.  `acc` holds the current
piece reversed; when `skipping` is `true` the scanner is inside a
separator run and drops its remaining newlines. -/
def splitBlankAux : Bool → Text → Text → List Text
  | _, [], acc => [acc.reverse]
  | skipping, c :: rest, acc =>
    if skipping && c = '\n' then
      splitBlankAux true rest acc
    else if c = '\n' && rest.head? = some '\n' then
      acc.reverse :: splitBlankAux true rest []
    else
      splitBlankAux false rest (c :: acc)

/-- The function `split_paragraphs`: split by real paragraph breaks (blank lines), strip
each piece, and drop the empty ones. -/
def split_paragraphs (text : Text) : List Text :=
  ((splitBlankAux false text []).map strip).filter (fun p => !p.isEmpty)

/-- The sentence terminators of `SENTENCE_DELIM` (Latin + Persian + Chinese
sentence endings). -/
def isTerm (c : Char) : Bool :=
  c = '.' || c = '!' || c = '?' || c = '؟' || c = '。'

/-- The split `SENTENCE_DELIM.split(paragraph)`: the segments between terminator
characters (terminators removed). -/
def splitTerm : Text → List Text
  | [] => [[]]
  | c :: rest =>
    if isTerm c then [] :: splitTerm rest
    else
      match splitTerm rest with
      | [] => [[c]]
      | s :: ss => (c :: s) :: ss

/-- The matches `SENTENCE_DELIM.findall(paragraph)`: the terminator characters in
order. -/
def findTerm (t : Text) : Text := t.filter isTerm

/-- The loop `sent += endings[i] if i < len(endings)`: reattach each terminator to
the sentence segment that precedes it. -/
def attachEndings : List Text → Text → List Text
  | [], _ => []
  | s :: ss, [] => s :: attachEndings ss []
  | s :: ss, e :: es => (s ++ [e]) :: attachEndings ss es

/-- The pieces `sentences[i] + endings[i]` of `break_long_paragraph`: each
segment with its terminator reattached, before stripping and filtering. -/
def pieces (paragraph : Text) : List Text :=
  attachEndings (splitTerm paragraph) (findTerm paragraph)

/-- The `parts` list of `break_long_paragraph`: sentence fragments with
their terminators attached, stripped, empties dropped. -/
def sentenceFragments (paragraph : Text) : List Text :=
  ((pieces paragraph).map strip).filter (fun p => !p.isEmpty)

/-- The greedy regrouping loop of `break_long_paragraph`: accumulate
fragments into `buffer` while the buffer, a joining space and the next
fragment still fit under `hardLimit`; otherwise flush the (stripped)
non-empty buffer as a finished group and restart from the fragment.  The
final buffer is flushed unstripped, as in the source. -/
def regroup (hardLimit : Nat) (buffer : Text) : List Text → List Text
  | [] => if buffer.isEmpty then [] else [buffer]
  | p :: ps =>
    if buffer.length + p.length + 1 ≤ hardLimit then
      regroup hardLimit (if buffer.isEmpty then p else buffer ++ ' ' :: p) ps
    else if buffer.isEmpty then
      regroup hardLimit p ps
    else
      strip buffer :: regroup hardLimit p ps

/-- The function `break_long_paragraph`: if a single paragraph is longer than
`hard_limit`, break it at sentence boundaries and regroup greedily. -/
def break_long_paragraph (paragraph : Text) (hardLimit : Nat) : List Text :=
  if paragraph.length ≤ hardLimit then [paragraph]
  else regroup hardLimit [] (sentenceFragments paragraph)

/-- The paragraph separator `"\n\n"` inserted between merged units. -/
def paraSep : Text := ['\n', '\n']

/-- One packing step for a unit not longer than `max_chars` (the repeated
`if chunks and len(chunks[-1]) + len(para) + 2 <= max_chars` snippet of
the source): append to the last chunk when it still fits, else open a new
chunk.  The chunk list is kept most-recent-first. -/
def packFit (maxChars : Nat) (chunks : List Text) (para : Text) : List Text :=
  match chunks with
  | [] => [para]
  | c :: rest =>
    if c.length + para.length + 2 ≤ maxChars then
      (c ++ paraSep ++ para) :: rest
    else
      para :: c :: rest

/-- Process one paragraph: a paragraph longer than `max_chars` is broken
into fragment-groups which are appended as chunks of their own
(`chunks.extend(broken)`); otherwise it goes through the fit-or-open
step. -/
def packUnit (maxChars : Nat) (chunks : List Text) (para : Text) : List Text :=
  if maxChars < para.length then
    (break_long_paragraph para maxChars).reverse ++ chunks
  else
    packFit maxChars chunks para

/-- The driver state of the page loop: the chunks built so far (in reverse
order) and the carry buffer holding a possibly incomplete trailing
paragraph from the previous page. -/
structure ChunkState where
  chunks : List Text
  buffer : Text
deriving DecidableEq, Repr

/-- The test `text.rstrip().endswith(("\n\n", "\n"))` of the source. -/
def endsWithParaBreak (text : Text) : Bool :=
  paraSep.isSuffixOf (rstrip text) || ['\n'].isSuffixOf (rstrip text)

/-- One iteration of the page loop of `build_chunks`: merge the carry
buffer with the page text, segment into paragraphs (with the `["", ""]`
sentinel for an empty segmentation), pack all complete paragraphs, then
either pack the last paragraph as well (page judged cleanly terminated)
or carry it to the next page. -/
def stepPage (maxChars : Nat) (s : ChunkState) (text : Text) : ChunkState :=
  let fullText := if s.buffer.isEmpty then text else s.buffer ++ paraSep ++ text
  let paragraphs := split_paragraphs fullText
  let paras := if paragraphs.isEmpty then [[], []] else paragraphs
  let complete := paras.dropLast
  let maybeIncomplete := paras.getLastD []
  let chunks := complete.foldl (packUnit maxChars) s.chunks
  if endsWithParaBreak text then
    { chunks := packUnit maxChars chunks maybeIncomplete, buffer := [] }
  else
    { chunks := chunks, buffer := maybeIncomplete }

/-- The pure core of `build_chunks`: fold the ordered page texts through
the page loop, flush the remaining carry buffer, and restore the natural
chunk order. -/
def build_chunks (pages : List Text) (maxChars : Nat) : List Text :=
  let s := pages.foldl (stepPage maxChars) ⟨[], []⟩
  (if s.buffer.isEmpty then s.chunks else packUnit maxChars s.chunks s.buffer).reverse

/-- The stem `os.path.splitext(fname)[0]`: drop the extension (everything from the
last dot on) unless every character before that dot is itself a dot. -/
def splitextStem (n : Text) : Text :=
  let ext := n.reverse.takeWhile (fun c => c ≠ '.')
  if ext.length = n.length then n
  else
    let stem := (n.reverse.drop (ext.length + 1)).reverse
    if stem.all (fun c => c = '.') then n else stem

/-- Value of a run of decimal digits (`int(...)`). -/
def digitsVal (ds : Text) : Nat := ds.foldl (fun a c => 10 * a + (c.toNat - 48)) 0

/-- The maximal run of decimal digits at the end of a text
(`re.search(r'\d+$', base)`). -/
def trailingDigits (t : Text) : Text := (t.reverse.takeWhile Char.isDigit).reverse

/-- The function `natural_sort_key`: the integer value of the trailing digit run of the
name stem, or 0 when there is none.  Total — it never raises. -/
def natural_sort_key (fname : Text) : Nat :=
  let base := splitextStem fname
  let ds := trailingDigits base
  if ds.isEmpty then 0 else digitsVal ds

/-- The call `sorted(names, key=natural_sort_key)`: a stable sort by the key
(Python `sorted` is a stable sort, as is `List.mergeSort`). -/
def sortByKey (names : List Text) : List Text :=
  names.mergeSort (fun a b => natural_sort_key a ≤ natural_sort_key b)

/-- The test `f.lower().endswith('.md')`. -/
def isMdName (n : Text) : Bool := ['.', 'm', 'd'].isSuffixOf (n.map Char.toLower)

/-- The function `build_chunks` at the directory level: keep the `*.md` names, order
them by `natural_sort_key`, raise `ValueError` when none are found,
otherwise run the page loop on the file contents.  A directory listing is
modelled as a list of (name, contents) pairs. -/
def build_chunks_dir (files : List (Text × Text)) (maxChars : Nat) :
    Except Text (List Text) :=
  let mdFiles := (files.filter (fun f => isMdName f.1)).mergeSort
      (fun a b => natural_sort_key a.1 ≤ natural_sort_key b.1)
  if mdFiles.isEmpty then
    Except.error ("No *.md files found in pages-dir".toList)
  else
    Except.ok (build_chunks (mdFiles.map (fun f => f.2)) maxChars)

/-- The function `save_chunks`: number the chunks sequentially starting from `i`. -/
def save_chunks : List Text → Nat → List (Nat × Text)
  | [], _ => []
  | c :: cs, i => (i, c) :: save_chunks cs (i + 1)

/-- The function `main`: build the chunks, then write them numbered from 1; an error
raised by `build_chunks` propagates and nothing is written. -/
def mainRun (files : List (Text × Text)) (maxChars : Nat) :
    Except Text (List (Nat × Text)) :=
  (build_chunks_dir files maxChars).map (fun chunks => save_chunks chunks 1)

/-- The non-whitespace character stream of a list of texts, in order:
the text content that must be conserved by the merger. -/
def contentOf (ts : List Text) : Text :=
  (ts.map (fun t => t.filter (fun c => !isSpace c))).flatten

/-- A single sentence fragment: non-empty, with no sentence terminator
anywhere except possibly as its final character. -/
def isSingleSentence (t : Text) : Bool :=
  !t.isEmpty && t.dropLast.all (fun c => !isTerm c)

/-- A text that neither starts nor ends with whitespace (the fixed points
of `strip`). -/
def Trimmed (b : Text) : Prop :=
  b.head?.all (fun c => !isSpace c) = true ∧ b.getLast?.all (fun c => !isSpace c) = true

/-- A text with no two adjacent newline characters (no paragraph-boundary
run inside it). -/
def NoBlankRun (b : Text) : Prop :=
  b.Chain' (fun a c => ¬(a = '\n' ∧ c = '\n'))

/-- Modelled from the spec wording of the greedy regrouping (4.3): fragments
accumulate into a running buffer while `len(buffer) + len(next) + 1 <=
max_chars`; otherwise the non-empty buffer is flushed as a group and a new
buffer starts with that fragment; the final buffer is flushed at the end. -/
def regroupSpec (maxChars : Nat) (buffer : Text) : List Text → List Text
  | [] => if buffer.isEmpty then [] else [buffer]
  | p :: ps =>
    if buffer.length + p.length + 1 ≤ maxChars then
      regroupSpec maxChars (if buffer.isEmpty then p else buffer ++ ' ' :: p) ps
    else if buffer.isEmpty then
      regroupSpec maxChars p ps
    else
      buffer :: regroupSpec maxChars p ps


/-! Section: Whitespace and trimming lemmas -/

theorem dropWhile_head?_not (p : Char → Bool) (l : Text) :
    ∀ c, (l.dropWhile p).head? = some c → p c = false := by
  induction l with
  | nil => intro c h; simp [List.dropWhile] at h
  | cons a t ih =>
    intro c h
    rw [List.dropWhile_cons] at h
    split at h
    · exact ih c h
    · next hpa =>
      simp only [List.head?_cons, Option.some.injEq] at h
      subst h
      exact Bool.eq_false_iff.mpr hpa

/-- The completeness test of the source is constant `false`: right-trimming
removes every trailing newline, so the right-trimmed text never ends with
one, and the source never judges any page cleanly terminated. -/
theorem endsWithParaBreak_false (t : Text) : endsWithParaBreak t = false := by
  unfold endsWithParaBreak rstrip
  cases h : t.reverse.dropWhile isSpace with
  | nil => rfl
  | cons c cs =>
    have hc : isSpace c = false := dropWhile_head?_not isSpace t.reverse c (by rw [h]; rfl)
    have hcn : ('\n' == c) = false := by
      refine beq_eq_false_iff_ne.mpr ?_
      intro he
      rw [← he] at hc
      simp [isSpace] at hc
    simp only [List.isSuffixOf, List.reverse_reverse]
    simp [paraSep, List.isPrefixOf, hcn]

/-- Claim C10 (confirmed).  The completeness test
`text.rstrip().endswith(("\n\n", "\n"))` always evaluates to `false`, so
after each page iteration the carry buffer equals the last element of the
segmented paragraph list (the empty string when there are no paragraphs),
and the chunk list is extended by packing only the all-but-last paragraphs:
a page's final paragraph is never packed during its own iteration. -/
theorem c10_last_paragraph_always_carried (maxChars : Nat) (s : ChunkState) (text : Text) :
    endsWithParaBreak text = false
    ∧ (stepPage maxChars s text).buffer =
        (split_paragraphs
          (if s.buffer.isEmpty then text else s.buffer ++ paraSep ++ text)).getLastD []
    ∧ (stepPage maxChars s text).chunks =
        ((fun paragraphs =>
            (if paragraphs.isEmpty then [[], []] else paragraphs).dropLast)
          (split_paragraphs
            (if s.buffer.isEmpty then text else s.buffer ++ paraSep ++ text))).foldl
          (packUnit maxChars) s.chunks := by
  refine ⟨endsWithParaBreak_false text, ?_, ?_⟩
  · unfold stepPage
    rw [endsWithParaBreak_false]
    simp only [Bool.false_eq_true, if_false]
    cases h : split_paragraphs (if s.buffer.isEmpty then text else s.buffer ++ paraSep ++ text) with
    | nil => simp [h]
    | cons p ps => simp [h]
  · unfold stepPage
    rw [endsWithParaBreak_false]
    simp

/-- Claim C2 (code_bug evidence).  The page `"Hello.\n\n"` ends with a
paragraph-boundary sequence, yet the driver does not judge it cleanly
terminated: after its iteration nothing has been fed to the packer and the
carry buffer holds the page's last paragraph instead of being empty. -/
theorem c2_clean_page_still_carried :
    endsWithParaBreak ("Hello.\n\n".toList) = false
    ∧ stepPage 2000 ⟨[], []⟩ ("Hello.\n\n".toList) = ⟨[], "Hello.".toList⟩ := by
  exact ⟨endsWithParaBreak_false _, rfl⟩

/-- Claim C1 (code_bug evidence).  Scenario 2 of the spec: the carry text and
its continuation are packed as two separate paragraphs of one chunk — the
first paragraph of the first chunk is the unmerged `"Start of a sentence
that"`, not the single merged sentence required by the claim. -/
theorem c1_carry_not_merged :
    build_chunks ["Start of a sentence that".toList,
        " continues here. Next paragraph.\n\n".toList] 2000 =
      ["Start of a sentence that\n\ncontinues here. Next paragraph.".toList]
    ∧ (split_paragraphs
        ("Start of a sentence that\n\ncontinues here. Next paragraph.".toList)).head? =
        some ("Start of a sentence that".toList)
    ∧ (split_paragraphs
        ("Start of a sentence that\n\ncontinues here. Next paragraph.".toList)).head? ≠
        some ("Start of a sentence that continues here.".toList) := by
  refine ⟨rfl, rfl, by decide⟩


/-! Section: Fragment-group packing (C4), error handling (C7), empty pages (C8) -/

/-- Claim C4 (amended, proved).  An over-long paragraph's fragment-groups are
appended to the chunk list as chunks of their own (`chunks.extend(broken)`):
no fragment-group — in particular not the first one — is ever joined into
the previous open chunk, regardless of whether it would fit. -/
theorem c4_fragment_groups_extend (maxChars : Nat) (chunks : List Text) (para : Text)
    (h : maxChars < para.length) :
    packUnit maxChars chunks para =
      (break_long_paragraph para maxChars).reverse ++ chunks := by
  unfold packUnit
  rw [if_pos h]

theorem c4_fragment_groups_extend_witness :
    10 < ("BB. CC. DD.".toList).length
    ∧ packUnit 10 [['A']] ("BB. CC. DD.".toList) =
        (break_long_paragraph ("BB. CC. DD.".toList) 10).reverse ++ [['A']] :=
  ⟨by decide, c4_fragment_groups_extend 10 [['A']] ("BB. CC. DD.".toList) (by decide)⟩

/-- Claim C4 (counterexample).  With `max_chars = 10`, the single page
`"A\n\nBB. CC. DD."` yields the chunks `["A", "BB. CC.", "DD."]`: the
first fragment-group `"BB. CC."` of the over-long paragraph becomes its
own chunk even though appending it to the previous chunk `"A"` would fit
(`1 + 2 + 7 ≤ 10`), refuting the claimed per-unit packing of
fragment-groups. -/
theorem c4_first_group_not_merged :
    build_chunks ["A\n\nBB. CC. DD.".toList] 10 =
      ["A".toList, "BB. CC.".toList, "DD.".toList]
    ∧ ("A".toList).length + 2 + ("BB. CC.".toList).length ≤ 10 :=
  ⟨rfl, by decide⟩

/-- Claim C7 (amended, proved).  When the (filtered, sorted) list of `.md`
source documents is empty, the program fails immediately with the usage
error and writes nothing — the error is raised before any chunk reaches
`save_chunks`. -/
theorem c7_no_sources_is_fatal (files : List (Text × Text)) (maxChars : Nat)
    (h : files.filter (fun f => isMdName f.1) = []) :
    mainRun files maxChars = Except.error ("No *.md files found in pages-dir".toList) := by
  unfold mainRun build_chunks_dir
  rw [h, List.mergeSort_nil]
  rfl

theorem c7_no_sources_is_fatal_witness :
    ([(" readme.txt".toList, "x".toList)].filter (fun f => isMdName f.1) = [])
    ∧ mainRun [(" readme.txt".toList, "x".toList)] 2000 =
        Except.error ("No *.md files found in pages-dir".toList) :=
  ⟨by decide, c7_no_sources_is_fatal [(" readme.txt".toList, "x".toList)] 2000 (by decide)⟩

/-- Claim C7 (counterexample).  `max_chars <= 0` is not validated: with
`max_chars = 0` and one source page the program does not fail — it builds
and writes a chunk. -/
theorem c7_nonpositive_max_chars_not_rejected :
    mainRun [("1.md".toList, "Hi.".toList)] 0 = Except.ok [(1, "Hi.".toList)] := by
  have h1 : ([(("1.md".toList : Text), ("Hi.".toList : Text))].filter
      (fun f => isMdName f.1)) = [("1.md".toList, "Hi.".toList)] := by decide
  unfold mainRun build_chunks_dir
  rw [h1, List.mergeSort_singleton]
  rfl

/-- Claim C8 (counterexample).  An empty page document placed before a normal
page changes the output: the empty page's sentinel injects an empty
paragraph, so the run `["", "Hello.\n\n"]` produces the single chunk
`"\n\nHello."`, while `["Hello.\n\n"]` alone produces `"Hello."`. -/
theorem c8_leading_empty_page_changes_output :
    build_chunks [[], "Hello.\n\n".toList] 2000 = ["\n\nHello.".toList]
    ∧ build_chunks ["Hello.\n\n".toList] 2000 = ["Hello.".toList]
    ∧ build_chunks [[], "Hello.\n\n".toList] 2000 ≠
        build_chunks ["Hello.\n\n".toList] 2000 :=
  ⟨rfl, rfl, by decide⟩

/-! Section: Ordering resolver (C9) -/

theorem takeWhile_all_eq_true (p : Char → Bool) (l : Text) :
    (l.takeWhile p).all p = true :=
  List.all_eq_true.mpr (fun _ hx => List.mem_takeWhile_imp hx)

/-- Claim C9 (confirmed).  `natural_sort_key` decomposes the name stem into a
prefix and the maximal trailing run of decimal digits (the prefix cannot
end in a digit), returns that run's integer value or `0` when the run is
empty, and never raises (it is total by construction); the sort it keys is
stable, so re-running the ordering resolver on an already-sorted name list
is a no-op (idempotence). -/
theorem c9_ordering_resolver :
    (∀ fname : Text,
      splitextStem fname =
          ((splitextStem fname).reverse.dropWhile Char.isDigit).reverse
            ++ trailingDigits (splitextStem fname)
      ∧ (trailingDigits (splitextStem fname)).all Char.isDigit = true
      ∧ (((splitextStem fname).reverse.dropWhile Char.isDigit).reverse.getLast?.all
          (fun c => !c.isDigit)) = true
      ∧ natural_sort_key fname =
          (if (trailingDigits (splitextStem fname)).isEmpty then 0
           else digitsVal (trailingDigits (splitextStem fname))))
    ∧ ∀ names : List Text, sortByKey (sortByKey names) = sortByKey names := by
  constructor
  · intro fname
    refine ⟨?_, ?_, ?_, rfl⟩
    · conv_lhs => rw [← List.reverse_reverse (splitextStem fname),
        ← List.takeWhile_append_dropWhile Char.isDigit (splitextStem fname).reverse]
      rw [List.reverse_append]
      rfl
    · unfold trailingDigits
      rw [List.all_reverse]
      exact takeWhile_all_eq_true _ _
    · rw [List.getLast?_reverse]
      cases h : ((splitextStem fname).reverse.dropWhile Char.isDigit).head? with
      | none => rfl
      | some c =>
        have := dropWhile_head?_not Char.isDigit (splitextStem fname).reverse c h
        simp [Option.all, this]
  · intro names
    unfold sortByKey
    refine List.mergeSort_of_sorted (List.sorted_mergeSort ?_ ?_ names)
    · intro a b c hab hbc
      simp only [decide_eq_true_eq] at hab hbc ⊢
      exact Nat.le_trans hab hbc
    · intro a b
      simp only [Bool.or_eq_true, decide_eq_true_eq]
      exact Nat.le_total _ _


/-! Section: Strip infrastructure -/

theorem head?_dropWhile_all (p : Char → Bool) (l : Text) :
    ((l.dropWhile p).head?).all (fun c => !p c) = true := by
  cases h : (l.dropWhile p).head? with
  | none => rfl
  | some c =>
    have := dropWhile_head?_not p l c h
    simp [Option.all, this]

theorem length_strip_le (t : Text) : (strip t).length ≤ t.length := by
  have h1 : (rstrip t).length ≤ t.length := by
    unfold rstrip
    rw [List.length_reverse]
    calc (t.reverse.dropWhile isSpace).length
        ≤ t.reverse.length := (List.dropWhile_suffix isSpace).sublist.length_le
      _ = t.length := List.length_reverse t
  calc (strip t).length
      ≤ (rstrip t).length := (List.dropWhile_suffix isSpace).sublist.length_le
    _ ≤ t.length := h1

theorem filter_dropWhile_not (l : Text) :
    (l.dropWhile isSpace).filter (fun c => !isSpace c) = l.filter (fun c => !isSpace c) := by
  induction l with
  | nil => rfl
  | cons a t ih =>
    rw [List.dropWhile_cons]
    split
    · next h => simp [List.filter_cons, h, ih]
    · rfl

theorem filter_rstrip (t : Text) :
    (rstrip t).filter (fun c => !isSpace c) = t.filter (fun c => !isSpace c) := by
  unfold rstrip
  rw [List.filter_reverse, filter_dropWhile_not, List.filter_reverse, List.reverse_reverse]

theorem filter_strip (t : Text) :
    (strip t).filter (fun c => !isSpace c) = t.filter (fun c => !isSpace c) := by
  unfold strip lstrip
  rw [filter_dropWhile_not, filter_rstrip]

theorem getLast?_dropWhile_of_ne_nil (p : Char → Bool) (l : Text)
    (h : l.dropWhile p ≠ []) : (l.dropWhile p).getLast? = l.getLast? := by
  obtain ⟨pre, hpre⟩ := List.dropWhile_suffix (l := l) p
  conv_rhs => rw [← hpre]
  rw [List.getLast?_append_of_ne_nil pre h]

theorem getLast?_rstrip_all (t : Text) :
    (rstrip t).getLast?.all (fun c => !isSpace c) = true := by
  unfold rstrip
  rw [List.getLast?_reverse]
  exact head?_dropWhile_all isSpace t.reverse

theorem trimmed_strip (t : Text) : Trimmed (strip t) := by
  constructor
  · exact head?_dropWhile_all isSpace (rstrip t)
  · by_cases h : strip t = []
    · rw [h]; rfl
    · unfold strip lstrip at *
      rw [getLast?_dropWhile_of_ne_nil isSpace (rstrip t) h]
      exact getLast?_rstrip_all t

theorem strip_eq_self (b : Text) (hb : Trimmed b) : strip b = b := by
  obtain ⟨h1, h2⟩ := hb
  have hr : rstrip b = b := by
    unfold rstrip
    cases hb2 : b.reverse with
    | nil =>
      simp only [List.reverse_eq_nil_iff] at hb2
      rw [hb2]
      rfl
    | cons c cs =>
      have hlast : b.getLast? = some c := by
        rw [← List.head?_reverse, hb2]
        rfl
      rw [hlast] at h2
      simp only [Option.all] at h2
      rw [List.dropWhile_cons, if_neg (by simp [Bool.not_eq_true] at h2 ⊢; exact h2)]
      rw [← hb2, List.reverse_reverse]
  have hl : lstrip b = b := by
    unfold lstrip
    cases hb1 : b with
    | nil => rfl
    | cons c cs =>
      have hhead : b.head? = some c := by rw [hb1]; rfl
      rw [hhead] at h1
      simp only [Option.all] at h1
      rw [List.dropWhile_cons, if_neg (by simp [Bool.not_eq_true] at h1 ⊢; exact h1)]
  unfold strip
  rw [hr, hl]

theorem strip_idem (t : Text) : strip (strip t) = strip t :=
  strip_eq_self _ (trimmed_strip t)

theorem trimmed_append_space (b p : Text) (hb : Trimmed b) (hp : Trimmed p)
    (hbne : b ≠ []) (hpne : p ≠ []) : Trimmed (b ++ ' ' :: p) := by
  constructor
  · rw [List.head?_append_of_ne_nil b hbne]
    exact hb.1
  · rw [List.getLast?_append_of_ne_nil b (by simp)]
    have hsp : (' ' :: p) = [' '] ++ p := rfl
    rw [hsp, List.getLast?_append_of_ne_nil [' '] hpne]
    exact hp.2

/-! Section: Preservation of the fragment shape by stripping -/

theorem tail_dropWhile_all (p q : Char → Bool) (l : Text) (h : l.tail.all q = true) :
    ((l.dropWhile p).tail).all q = true := by
  cases l with
  | nil => rfl
  | cons a t =>
    rw [List.dropWhile_cons]
    split
    · refine List.all_eq_true.mpr (fun x hx => List.all_eq_true.mp h x ?_)
      exact ((List.tail_sublist _).trans (List.dropWhile_suffix p).sublist).subset hx
    · exact h

theorem dropLast_all_rstrip (q : Char → Bool) (s : Text) (h : s.dropLast.all q = true) :
    (rstrip s).dropLast.all q = true := by
  have key : ∀ u : Text, u.dropLast.all q = (u.reverse.tail).all q := by
    intro u
    rw [List.tail_reverse, List.all_reverse]
  rw [key]
  unfold rstrip
  rw [List.reverse_reverse]
  rw [key] at h
  exact tail_dropWhile_all isSpace q s.reverse h

theorem dropLast_all_dropWhile (p q : Char → Bool) (x : Text) (h : x.dropLast.all q = true) :
    ((x.dropWhile p).dropLast).all q = true := by
  induction x with
  | nil => rfl
  | cons a t ih =>
    rw [List.dropWhile_cons]
    split
    · refine ih ?_
      cases t with
      | nil => rfl
      | cons b u =>
        simp only [List.dropLast_cons₂, List.all_cons, Bool.and_eq_true] at h
        exact h.2
    · exact h

theorem dropLast_all_strip (q : Char → Bool) (s : Text) (h : s.dropLast.all q = true) :
    (strip s).dropLast.all q = true :=
  dropLast_all_dropWhile isSpace q (rstrip s) (dropLast_all_rstrip q s h)


/-! Section: Sentence pieces: shape and reconstruction -/

theorem splitTerm_ne_nil (t : Text) : splitTerm t ≠ [] := by
  cases t with
  | nil => simp [splitTerm]
  | cons c rest =>
    unfold splitTerm
    split
    · simp
    · split <;> simp

theorem pieces_nil : pieces [] = [[]] := rfl

theorem pieces_cons_term (c : Char) (rest : Text) (h : isTerm c = true) :
    pieces (c :: rest) = [c] :: pieces rest := by
  unfold pieces findTerm
  simp [splitTerm, h, List.filter_cons, attachEndings]

theorem pieces_cons_not_term (c : Char) (rest : Text) (h : isTerm c = false) :
    ∃ s ss, pieces rest = s :: ss ∧ pieces (c :: rest) = (c :: s) :: ss := by
  obtain ⟨s0, ss0, hs⟩ : ∃ s0 ss0, splitTerm rest = s0 :: ss0 := by
    cases hsp : splitTerm rest with
    | nil => exact absurd hsp (splitTerm_ne_nil rest)
    | cons a b => exact ⟨a, b, rfl⟩
  have hsplit : splitTerm (c :: rest) = (c :: s0) :: ss0 := by
    unfold splitTerm
    rw [if_neg (by simp [h]), hs]
  have hfind : findTerm (c :: rest) = findTerm rest := by
    unfold findTerm
    simp [List.filter_cons, h]
  unfold pieces
  rw [hsplit, hfind, hs]
  cases hf : findTerm rest with
  | nil => exact ⟨s0, attachEndings ss0 [], by simp [attachEndings], by simp [attachEndings]⟩
  | cons e es =>
    exact ⟨s0 ++ [e], attachEndings ss0 es, by simp [attachEndings], by simp [attachEndings]⟩

theorem pieces_ne_nil (p : Text) : pieces p ≠ [] := by
  cases p with
  | nil => simp [pieces_nil]
  | cons c rest =>
    by_cases h : isTerm c = true
    · rw [pieces_cons_term c rest h]; simp
    · obtain ⟨s, ss, _, h2⟩ := pieces_cons_not_term c rest (by simpa using h)
      rw [h2]; simp

/-- The pieces reassemble the paragraph exactly: splitting keeps every
terminator attached to the sentence it closes and loses nothing. -/
theorem pieces_flatten (p : Text) : (pieces p).flatten = p := by
  induction p with
  | nil => rfl
  | cons c rest ih =>
    by_cases h : isTerm c = true
    · rw [pieces_cons_term c rest h]
      simp [List.flatten_cons, ih]
    · obtain ⟨s, ss, h1, h2⟩ := pieces_cons_not_term c rest (by simpa using h)
      rw [h2, List.flatten_cons]
      have hres := ih
      rw [h1, List.flatten_cons] at hres
      simp [← hres]

/-- Inside a piece, terminator characters occur only at the final
position. -/
theorem pieces_dropLast_all (p : Text) :
    ∀ s ∈ pieces p, s.dropLast.all (fun c => !isTerm c) = true := by
  induction p with
  | nil =>
    intro s hs
    rw [pieces_nil] at hs
    simp at hs
    subst hs
    rfl
  | cons c rest ih =>
    intro s hs
    by_cases h : isTerm c = true
    · rw [pieces_cons_term c rest h] at hs
      rcases List.mem_cons.mp hs with h1 | h1
      · subst h1; rfl
      · exact ih s h1
    · have hf : isTerm c = false := by simpa using h
      obtain ⟨s0, ss0, h1, h2⟩ := pieces_cons_not_term c rest hf
      rw [h2] at hs
      rcases List.mem_cons.mp hs with h3 | h3
      · subst h3
        cases s0 with
        | nil => rfl
        | cons b u =>
          rw [List.dropLast_cons₂, List.all_cons]
          have hmem : (b :: u) ∈ pieces rest := by
            rw [h1]; exact List.mem_cons_self _ _
          simp [hf, ih (b :: u) hmem]
      · exact ih s (by rw [h1]; exact List.mem_cons.mpr (Or.inr h3))

/-! Section: Sentence fragments -/

theorem mem_sentenceFragments (p f : Text) (hf : f ∈ sentenceFragments p) :
    ∃ piece ∈ pieces p, f = strip piece ∧ f ≠ [] := by
  unfold sentenceFragments at hf
  obtain ⟨hf1, hf2⟩ := List.mem_filter.mp hf
  obtain ⟨piece, hp, he⟩ := List.mem_map.mp hf1
  refine ⟨piece, hp, he.symm, ?_⟩
  simpa [List.isEmpty_iff] using hf2

/-- Every fragment of `parts` is non-empty, trimmed, a fixed point of
`strip`, and a single sentence (no terminator before its last
character). -/
theorem fragment_props (p f : Text) (hf : f ∈ sentenceFragments p) :
    f ≠ [] ∧ Trimmed f ∧ strip f = f ∧ isSingleSentence f = true := by
  obtain ⟨piece, hp, he, hne⟩ := mem_sentenceFragments p f hf
  have htr : Trimmed f := he ▸ trimmed_strip piece
  refine ⟨hne, htr, strip_eq_self f htr, ?_⟩
  unfold isSingleSentence
  have hshape : f.dropLast.all (fun c => !isTerm c) = true := by
    rw [he]
    exact dropLast_all_strip _ piece (pieces_dropLast_all p piece hp)
  simp [hshape, List.isEmpty_iff, hne]


/-! Section: The greedy regrouping (C6) -/

theorem regroup_nil (maxc : Nat) (buffer : Text) :
    regroup maxc buffer [] = if buffer.isEmpty then [] else [buffer] := rfl

theorem regroup_cons (maxc : Nat) (buffer p : Text) (ps : List Text) :
    regroup maxc buffer (p :: ps) =
      if buffer.length + p.length + 1 ≤ maxc then
        regroup maxc (if buffer.isEmpty then p else buffer ++ ' ' :: p) ps
      else if buffer.isEmpty then
        regroup maxc p ps
      else
        strip buffer :: regroup maxc p ps := rfl

theorem regroupSpec_cons (maxc : Nat) (buffer p : Text) (ps : List Text) :
    regroupSpec maxc buffer (p :: ps) =
      if buffer.length + p.length + 1 ≤ maxc then
        regroupSpec maxc (if buffer.isEmpty then p else buffer ++ ' ' :: p) ps
      else if buffer.isEmpty then
        regroupSpec maxc p ps
      else
        buffer :: regroupSpec maxc p ps := rfl

/-- On trimmed fragments — which is what `break_long_paragraph` feeds it —
the source regrouping loop coincides with the regrouping described by the
spec (the `.strip()` on flush is the identity there). -/
theorem regroup_eq_regroupSpec (maxChars : Nat) :
    ∀ (parts : List Text) (buffer : Text),
      (∀ f ∈ parts, Trimmed f ∧ f ≠ []) →
      (buffer = [] ∨ (Trimmed buffer ∧ buffer ≠ [])) →
      regroup maxChars buffer parts = regroupSpec maxChars buffer parts := by
  intro parts
  induction parts with
  | nil => intro buffer _ _; rfl
  | cons p ps ih =>
    intro buffer hparts hbuf
    have hp := hparts p (List.mem_cons_self _ _)
    have hps : ∀ f ∈ ps, Trimmed f ∧ f ≠ [] :=
      fun f hf => hparts f (List.mem_cons.mpr (Or.inr hf))
    rw [regroup_cons, regroupSpec_cons]
    by_cases hfit : buffer.length + p.length + 1 ≤ maxChars
    · simp only [if_pos hfit]
      by_cases hbe : buffer.isEmpty
      · simp only [if_pos hbe]
        exact ih _ hps (Or.inr ⟨hp.1, hp.2⟩)
      · simp only [if_neg hbe]
        have hbuf2 : Trimmed buffer ∧ buffer ≠ [] :=
          hbuf.resolve_left (by simpa [List.isEmpty_iff] using hbe)
        exact ih _ hps
          (Or.inr ⟨trimmed_append_space buffer p hbuf2.1 hp.1 hbuf2.2 hp.2, by simp⟩)
    · simp only [if_neg hfit]
      by_cases hbe : buffer.isEmpty
      · simp only [if_pos hbe]
        exact ih _ hps (Or.inr ⟨hp.1, hp.2⟩)
      · simp only [if_neg hbe]
        have hbuf2 : Trimmed buffer ∧ buffer ≠ [] :=
          hbuf.resolve_left (by simpa [List.isEmpty_iff] using hbe)
        rw [strip_eq_self buffer hbuf2.1, ih _ hps (Or.inr ⟨hp.1, hp.2⟩)]

theorem oversized_buffer_mem (maxc : Nat) (b : Text) (hlen : maxc < b.length)
    (hstrip : strip b = b) : ∀ rest : List Text, b ∈ regroup maxc b rest := by
  have hne : b ≠ [] := by
    intro h
    rw [h] at hlen
    simp at hlen
  intro rest
  induction rest with
  | nil =>
    rw [regroup_nil, if_neg (by simpa [List.isEmpty_iff] using hne)]
    exact List.mem_singleton.mpr rfl
  | cons q qs ih =>
    rw [regroup_cons]
    rw [if_neg (by omega), if_neg (by simpa [List.isEmpty_iff] using hne), hstrip]
    exact List.mem_cons_self _ _

/-- An oversized fragment always survives the regrouping as a group of its
own, unmodified. -/
theorem oversized_fragment_mem (maxc : Nat) (parts : List Text)
    (hparts : ∀ f ∈ parts, strip f = f) (f : Text) (hlen : maxc < f.length)
    (hmem : f ∈ parts) : ∀ buffer, f ∈ regroup maxc buffer parts := by
  induction parts with
  | nil => cases hmem
  | cons p ps ih =>
    intro buffer
    rw [regroup_cons]
    rcases List.mem_cons.mp hmem with heq | hmem2
    · subst heq
      rw [if_neg (by omega)]
      by_cases hbe : buffer.isEmpty
      · rw [if_pos hbe]
        exact oversized_buffer_mem maxc f hlen (hparts f (List.mem_cons_self _ _)) ps
      · rw [if_neg hbe]
        exact List.mem_cons.mpr
          (Or.inr (oversized_buffer_mem maxc f hlen (hparts f (List.mem_cons_self _ _)) ps))
    · have hps : ∀ g ∈ ps, strip g = g :=
        fun g hg => hparts g (List.mem_cons.mpr (Or.inr hg))
      have ihx := ih hps hmem2
      split
      · exact ihx _
      · split
        · exact ihx _
        · exact List.mem_cons.mpr (Or.inr (ihx _))

/-- Claim C6 (confirmed).  For an over-long paragraph, `break_long_paragraph`
(1) equals the spec's greedy regrouping of the sentence fragments, (2/3)
cuts the paragraph into pieces that reassemble it exactly with each
terminator attached to the sentence it closes (terminators occur only at a
piece's final position), (4) keeps only trimmed non-empty fragments, and
(5) emits an oversized fragment as its own group unmodified. -/
theorem c6_sentence_splitter_contract (paragraph : Text) (maxChars : Nat)
    (h : maxChars < paragraph.length) :
    break_long_paragraph paragraph maxChars =
        regroupSpec maxChars [] (sentenceFragments paragraph)
    ∧ (pieces paragraph).flatten = paragraph
    ∧ (∀ s ∈ pieces paragraph, s.dropLast.all (fun c => !isTerm c) = true)
    ∧ (∀ f ∈ sentenceFragments paragraph, strip f = f ∧ f ≠ [])
    ∧ (∀ f ∈ sentenceFragments paragraph,
        maxChars < f.length → f ∈ break_long_paragraph paragraph maxChars) := by
  have hbreak : break_long_paragraph paragraph maxChars
      = regroup maxChars [] (sentenceFragments paragraph) := by
    unfold break_long_paragraph
    rw [if_neg (by omega)]
  refine ⟨?_, pieces_flatten paragraph, pieces_dropLast_all paragraph, ?_, ?_⟩
  · rw [hbreak]
    apply regroup_eq_regroupSpec
    · intro f hf
      have hprops := fragment_props paragraph f hf
      exact ⟨hprops.2.1, hprops.1⟩
    · left
      rfl
  · intro f hf
    have hprops := fragment_props paragraph f hf
    exact ⟨hprops.2.2.1, hprops.1⟩
  · intro f hf hflen
    rw [hbreak]
    exact oversized_fragment_mem maxChars (sentenceFragments paragraph)
      (fun g hg => (fragment_props paragraph g hg).2.2.1) f hflen hf []

theorem c6_sentence_splitter_contract_witness :
    10 < ("BB. CC. DD.".toList).length
    ∧ break_long_paragraph ("BB. CC. DD.".toList) 10 =
        regroupSpec 10 [] (sentenceFragments ("BB. CC. DD.".toList)) :=
  ⟨by decide, (c6_sentence_splitter_contract ("BB. CC. DD.".toList) 10 (by decide)).1⟩


/-! Section: Boundedness (C3) -/

theorem regroup_bounded (maxc : Nat) :
    ∀ (parts : List Text) (buffer : Text),
      (∀ f ∈ parts, strip f = f ∧ isSingleSentence f = true) →
      (buffer.length ≤ maxc ∨ (strip buffer = buffer ∧ isSingleSentence buffer = true)) →
      ∀ g ∈ regroup maxc buffer parts,
        g.length ≤ maxc ∨ isSingleSentence g = true := by
  intro parts
  induction parts with
  | nil =>
    intro buffer _ hbuf g hg
    rw [regroup_nil] at hg
    split at hg
    · cases hg
    · have hgb : g = buffer := by simpa using hg
      subst hgb
      rcases hbuf with h | h
      · exact Or.inl h
      · exact Or.inr h.2
  | cons p ps ih =>
    intro buffer hparts hbuf g hg
    have hp := hparts p (List.mem_cons_self _ _)
    have hps : ∀ f ∈ ps, strip f = f ∧ isSingleSentence f = true :=
      fun f hf => hparts f (List.mem_cons.mpr (Or.inr hf))
    rw [regroup_cons] at hg
    by_cases hfit : buffer.length + p.length + 1 ≤ maxc
    · rw [if_pos hfit] at hg
      refine ih _ hps ?_ g hg
      by_cases hbe : buffer.isEmpty
      · rw [if_pos hbe]
        left
        omega
      · rw [if_neg hbe]
        left
        have hlen : (buffer ++ ' ' :: p).length = buffer.length + 1 + p.length := by
          simp [List.length_append]
          omega
        omega
    · rw [if_neg hfit] at hg
      by_cases hbe : buffer.isEmpty
      · rw [if_pos hbe] at hg
        exact ih _ hps (Or.inr hp) g hg
      · rw [if_neg hbe] at hg
        rcases List.mem_cons.mp hg with heq | hg2
        · subst heq
          rcases hbuf with h | h
          · left
            calc (strip buffer).length ≤ buffer.length := length_strip_le buffer
              _ ≤ maxc := h
          · rw [h.1]
            exact Or.inr h.2
        · exact ih _ hps (Or.inr hp) g hg2

theorem break_long_paragraph_bounded (maxc : Nat) (para : Text) :
    ∀ g ∈ break_long_paragraph para maxc,
      g.length ≤ maxc ∨ isSingleSentence g = true := by
  intro g hg
  unfold break_long_paragraph at hg
  split at hg
  · next hle =>
    have hgp : g = para := by simpa using hg
    subst hgp
    exact Or.inl hle
  · refine regroup_bounded maxc _ [] ?_ (Or.inl (by simp)) g hg
    intro f hf
    have hprops := fragment_props para f hf
    exact ⟨hprops.2.2.1, hprops.2.2.2⟩

theorem packFit_bounded (maxc : Nat) (chunks : List Text) (para : Text)
    (hch : ∀ c ∈ chunks, c.length ≤ maxc ∨ isSingleSentence c = true)
    (hpara : para.length ≤ maxc) :
    ∀ c ∈ packFit maxc chunks para, c.length ≤ maxc ∨ isSingleSentence c = true := by
  intro c hc
  cases chunks with
  | nil =>
    rw [show packFit maxc [] para = [para] from rfl] at hc
    have hcp : c = para := by simpa using hc
    subst hcp
    exact Or.inl hpara
  | cons c0 rest =>
    rw [show packFit maxc (c0 :: rest) para =
        (if c0.length + para.length + 2 ≤ maxc then (c0 ++ paraSep ++ para) :: rest
         else para :: c0 :: rest) from rfl] at hc
    split at hc
    · next hfit =>
      rcases List.mem_cons.mp hc with heq | h2
      · subst heq
        left
        simp only [List.length_append, paraSep, List.length_cons, List.length_nil]
        omega
      · exact hch c (List.mem_cons.mpr (Or.inr h2))
    · rcases List.mem_cons.mp hc with heq | h2
      · subst heq
        exact Or.inl hpara
      · exact hch c h2

theorem packUnit_bounded (maxc : Nat) (chunks : List Text) (para : Text)
    (hch : ∀ c ∈ chunks, c.length ≤ maxc ∨ isSingleSentence c = true) :
    ∀ c ∈ packUnit maxc chunks para, c.length ≤ maxc ∨ isSingleSentence c = true := by
  unfold packUnit
  by_cases h : maxc < para.length
  · rw [if_pos h]
    intro c hc
    rcases List.mem_append.mp hc with h1 | h2
    · exact break_long_paragraph_bounded maxc para c (List.mem_reverse.mp h1)
    · exact hch c h2
  · rw [if_neg h]
    exact packFit_bounded maxc chunks para hch (by omega)

theorem foldl_packUnit_bounded (maxc : Nat) (paras : List Text) :
    ∀ (chunks : List Text),
      (∀ c ∈ chunks, c.length ≤ maxc ∨ isSingleSentence c = true) →
      ∀ c ∈ paras.foldl (packUnit maxc) chunks,
        c.length ≤ maxc ∨ isSingleSentence c = true := by
  induction paras with
  | nil => exact fun chunks hch => hch
  | cons p ps ih =>
    intro chunks hch
    rw [List.foldl_cons]
    exact ih _ (packUnit_bounded maxc chunks p hch)

theorem stepPage_bounded (maxc : Nat) (s : ChunkState) (t : Text)
    (hch : ∀ c ∈ s.chunks, c.length ≤ maxc ∨ isSingleSentence c = true) :
    ∀ c ∈ (stepPage maxc s t).chunks, c.length ≤ maxc ∨ isSingleSentence c = true := by
  intro c hc
  unfold stepPage at hc
  rw [endsWithParaBreak_false] at hc
  simp only [Bool.false_eq_true, if_false] at hc
  exact foldl_packUnit_bounded maxc _ _ hch c hc

/-- Claim C3 (confirmed).  With a positive bound, every chunk produced by
`build_chunks` is within `max_chars`, except chunks that are a single
oversized sentence fragment (non-empty, no terminator before the final
character); the invariant is preserved by every packing step and by the
end-of-stream flush. -/
theorem c3_boundedness (pages : List Text) (maxChars : Nat) (hpos : 0 < maxChars) :
    ∀ c ∈ build_chunks pages maxChars,
      c.length ≤ maxChars ∨ (maxChars < c.length ∧ isSingleSentence c = true) := by
  have hstate : ∀ (ps : List Text) (s : ChunkState),
      (∀ c ∈ s.chunks, c.length ≤ maxChars ∨ isSingleSentence c = true) →
      ∀ c ∈ (ps.foldl (stepPage maxChars) s).chunks,
        c.length ≤ maxChars ∨ isSingleSentence c = true := by
    intro ps
    induction ps with
    | nil => exact fun s h => h
    | cons p ps2 ih =>
      intro s hs
      rw [List.foldl_cons]
      exact ih _ (stepPage_bounded maxChars s p hs)
  intro c hc
  unfold build_chunks at hc
  rw [List.mem_reverse] at hc
  have hall := hstate pages ⟨[], []⟩ (by intro c2 hc2; cases hc2)
  have hP : c.length ≤ maxChars ∨ isSingleSentence c = true := by
    split at hc
    · exact hall c hc
    · exact packUnit_bounded maxChars _ _ hall c hc
  rcases hP with h | h
  · exact Or.inl h
  · by_cases hlen : c.length ≤ maxChars
    · exact Or.inl hlen
    · exact Or.inr ⟨by omega, h⟩

theorem c3_boundedness_witness :
    0 < 5
    ∧ "Hello there world.".toList ∈ build_chunks ["Hi.\n\nHello there world.".toList] 5
    ∧ (("Hello there world.".toList).length ≤ 5
        ∨ (5 < ("Hello there world.".toList).length
            ∧ isSingleSentence ("Hello there world.".toList) = true)) :=
  ⟨by decide, by decide,
    c3_boundedness ["Hi.\n\nHello there world.".toList] 5 (by decide)
      ("Hello there world.".toList) (by decide)⟩


/-! Section: Conservation (C5) -/

theorem contentOf_nil : contentOf [] = [] := rfl

theorem contentOf_cons (a : Text) (L : List Text) :
    contentOf (a :: L) = a.filter (fun c => !isSpace c) ++ contentOf L := rfl

theorem contentOf_append (a b : List Text) :
    contentOf (a ++ b) = contentOf a ++ contentOf b := by
  simp [contentOf, List.flatten_append]

theorem contentOf_map_strip (L : List Text) :
    contentOf (L.map strip) = contentOf L := by
  induction L with
  | nil => rfl
  | cons a t ih => simp only [List.map_cons, contentOf_cons, filter_strip, ih]

theorem contentOf_filter_nonempty (L : List Text) :
    contentOf (L.filter (fun p => !p.isEmpty)) = contentOf L := by
  induction L with
  | nil => rfl
  | cons a t ih =>
    rw [List.filter_cons]
    by_cases ha : a.isEmpty
    · have hanil : a = [] := List.isEmpty_iff.mp ha
      subst hanil
      simp [contentOf_cons, ih]
    · simp only [ha, Bool.not_false, if_true, contentOf_cons, ih]

theorem splitBlankAux_cons (mode : Bool) (c : Char) (rest acc : Text) :
    splitBlankAux mode (c :: rest) acc =
      if mode && c = '\n' then splitBlankAux true rest acc
      else if c = '\n' && rest.head? = some '\n' then
        acc.reverse :: splitBlankAux true rest []
      else splitBlankAux false rest (c :: acc) := rfl

theorem splitBlankAux_content (t : Text) : ∀ (mode : Bool) (acc : Text),
    contentOf (splitBlankAux mode t acc) =
      acc.reverse.filter (fun c => !isSpace c) ++ t.filter (fun c => !isSpace c) := by
  have hnl : ((fun c => !isSpace c) '\n') = false := rfl
  induction t with
  | nil => intro mode acc; simp [splitBlankAux, contentOf]
  | cons c rest ih =>
    intro mode acc
    rw [splitBlankAux_cons]
    split
    · next h =>
      have hc : c = '\n' := by
        have := (Bool.and_eq_true _ _).mp h
        simpa using this.2
      subst hc
      rw [ih true acc]
      simp [List.filter_cons, hnl]
    · split
      · next h2 =>
        have hc : c = '\n' := by
          have := (Bool.and_eq_true _ _).mp h2
          simpa using this.1
        subst hc
        rw [contentOf_cons, ih true []]
        simp [List.filter_cons, hnl]
      · rw [ih false (c :: acc)]
        simp only [List.reverse_cons, List.filter_append, List.filter_cons]
        by_cases hcs : isSpace c
        · simp [hcs]
        · simp [hcs, List.append_assoc]

theorem split_paragraphs_content (t : Text) :
    contentOf (split_paragraphs t) = t.filter (fun c => !isSpace c) := by
  unfold split_paragraphs
  rw [contentOf_filter_nonempty, contentOf_map_strip, splitBlankAux_content]
  rfl

theorem contentOf_eq_flatten (L : List Text) :
    contentOf L = L.flatten.filter (fun c => !isSpace c) := by
  induction L with
  | nil => rfl
  | cons a t ih => simp [contentOf_cons, List.flatten_cons, List.filter_append, ih]

theorem sentenceFragments_content (p : Text) :
    contentOf (sentenceFragments p) = p.filter (fun c => !isSpace c) := by
  unfold sentenceFragments
  rw [contentOf_filter_nonempty, contentOf_map_strip, contentOf_eq_flatten, pieces_flatten]

theorem regroup_content (maxc : Nat) :
    ∀ (parts : List Text) (buffer : Text),
      contentOf (regroup maxc buffer parts) =
        buffer.filter (fun c => !isSpace c) ++ contentOf parts := by
  have hsp : ((fun c => !isSpace c) ' ') = false := rfl
  intro parts
  induction parts with
  | nil =>
    intro buffer
    rw [regroup_nil]
    by_cases hbe : buffer.isEmpty
    · have hnil : buffer = [] := List.isEmpty_iff.mp hbe
      subst hnil
      simp [contentOf]
    · simp [hbe, contentOf]
  | cons p ps ih =>
    intro buffer
    rw [regroup_cons]
    by_cases hfit : buffer.length + p.length + 1 ≤ maxc
    · rw [if_pos hfit, ih]
      by_cases hbe : buffer.isEmpty
      · have hnil : buffer = [] := List.isEmpty_iff.mp hbe
        subst hnil
        simp [hbe, contentOf_cons]
      · simp only [if_neg hbe, List.filter_append, List.filter_cons, hsp, if_false,
          Bool.false_eq_true, contentOf_cons, List.append_assoc]
    · rw [if_neg hfit]
      by_cases hbe : buffer.isEmpty
      · have hnil : buffer = [] := List.isEmpty_iff.mp hbe
        subst hnil
        rw [if_pos (by rfl), ih]
        simp [contentOf_cons]
      · rw [if_neg hbe, contentOf_cons, ih, filter_strip, contentOf_cons]

theorem break_long_paragraph_content (maxc : Nat) (para : Text) :
    contentOf (break_long_paragraph para maxc) = para.filter (fun c => !isSpace c) := by
  unfold break_long_paragraph
  split
  · simp [contentOf]
  · rw [regroup_content, sentenceFragments_content]
    rfl

theorem filter_paraSep : paraSep.filter (fun c => !isSpace c) = [] := rfl

theorem packFit_content (maxc : Nat) (chunks : List Text) (para : Text) :
    contentOf ((packFit maxc chunks para).reverse) =
      contentOf chunks.reverse ++ para.filter (fun c => !isSpace c) := by
  cases chunks with
  | nil => simp [packFit, contentOf]
  | cons c0 rest =>
    rw [show packFit maxc (c0 :: rest) para =
        (if c0.length + para.length + 2 ≤ maxc then (c0 ++ paraSep ++ para) :: rest
         else para :: c0 :: rest) from rfl]
    split
    · rw [List.reverse_cons, contentOf_append, List.reverse_cons, contentOf_append]
      simp [contentOf, List.filter_append, filter_paraSep, List.append_assoc]
    · rw [List.reverse_cons, contentOf_append, List.reverse_cons, contentOf_append]
      simp [contentOf, List.append_assoc]

theorem packUnit_content (maxc : Nat) (chunks : List Text) (para : Text) :
    contentOf ((packUnit maxc chunks para).reverse) =
      contentOf chunks.reverse ++ para.filter (fun c => !isSpace c) := by
  unfold packUnit
  split
  · rw [List.reverse_append, List.reverse_reverse, contentOf_append,
      break_long_paragraph_content]
  · exact packFit_content maxc chunks para

theorem foldl_packUnit_content (maxc : Nat) (paras : List Text) :
    ∀ chunks : List Text,
      contentOf ((paras.foldl (packUnit maxc) chunks).reverse) =
        contentOf chunks.reverse ++ contentOf paras := by
  induction paras with
  | nil => intro chunks; simp [contentOf]
  | cons p ps ih =>
    intro chunks
    rw [List.foldl_cons, ih, packUnit_content, contentOf_cons, List.append_assoc]

/-- The step `stepPage` with the constant-false completeness test already
resolved. -/
theorem stepPage_eq (maxc : Nat) (s : ChunkState) (t : Text) :
    stepPage maxc s t =
      { chunks := ((fun paragraphs =>
            (if paragraphs.isEmpty then [[], []] else paragraphs).dropLast)
          (split_paragraphs (if s.buffer.isEmpty then t else s.buffer ++ paraSep ++ t))).foldl
            (packUnit maxc) s.chunks,
        buffer := ((fun paragraphs =>
            (if paragraphs.isEmpty then ([[], []] : List Text) else paragraphs))
          (split_paragraphs
            (if s.buffer.isEmpty then t else s.buffer ++ paraSep ++ t))).getLastD [] } := by
  unfold stepPage
  rw [endsWithParaBreak_false]
  rfl

theorem dropLast_content_getLast (L : List Text) (hne : L ≠ []) :
    contentOf L.dropLast ++ (L.getLastD []).filter (fun c => !isSpace c) = contentOf L := by
  have hcat := List.dropLast_concat_getLast hne
  conv_rhs => rw [← hcat]
  rw [contentOf_append]
  have hlast : L.getLastD [] = L.getLast hne := by
    rw [List.getLastD_eq_getLast?, List.getLast?_eq_getLast L hne]
    rfl
  rw [hlast]
  simp [contentOf]

theorem stepPage_content (maxc : Nat) (s : ChunkState) (t : Text) :
    contentOf ((stepPage maxc s t).chunks.reverse)
        ++ ((stepPage maxc s t).buffer).filter (fun c => !isSpace c) =
      contentOf (s.chunks.reverse) ++ s.buffer.filter (fun c => !isSpace c)
        ++ t.filter (fun c => !isSpace c) := by
  rw [stepPage_eq]
  simp only []
  rw [foldl_packUnit_content]
  have hfull : (if s.buffer.isEmpty then t else s.buffer ++ paraSep ++ t).filter
      (fun c => !isSpace c) = s.buffer.filter (fun c => !isSpace c)
        ++ t.filter (fun c => !isSpace c) := by
    by_cases hbe : s.buffer.isEmpty
    · have hnil : s.buffer = [] := List.isEmpty_iff.mp hbe
      rw [if_pos hbe, hnil]
      rfl
    · rw [if_neg hbe]
      simp [List.filter_append, filter_paraSep]
  generalize hL : split_paragraphs (if s.buffer.isEmpty then t else s.buffer ++ paraSep ++ t) = L
  have hcontentL : contentOf L =
      s.buffer.filter (fun c => !isSpace c) ++ t.filter (fun c => !isSpace c) := by
    rw [← hL, split_paragraphs_content]
    exact hfull
  have hkey : contentOf (if L.isEmpty then ([[], []] : List Text) else L).dropLast
      ++ ((if L.isEmpty then ([[], []] : List Text) else L).getLastD []).filter
          (fun c => !isSpace c)
      = s.buffer.filter (fun c => !isSpace c) ++ t.filter (fun c => !isSpace c) := by
    cases L with
    | nil => exact hcontentL
    | cons q qs =>
      simp only [List.isEmpty_cons, Bool.false_eq_true, if_false]
      rw [dropLast_content_getLast (q :: qs) (by simp), hcontentL]
  rw [List.append_assoc, List.append_assoc, hkey]

/-- Claim C5 (confirmed).  Conservation: the sequence of non-whitespace
characters of the output chunks, concatenated in order, is exactly the
sequence of non-whitespace characters of the input pages — no text is
dropped or duplicated, and order is preserved (whitespace is exactly what
the inserted separators, trimming and sentence re-joining may alter). -/
theorem c5_conservation (pages : List Text) (maxChars : Nat) :
    contentOf (build_chunks pages maxChars) = contentOf pages := by
  have hfold : ∀ (ps : List Text) (s : ChunkState),
      contentOf ((ps.foldl (stepPage maxChars) s).chunks.reverse)
          ++ ((ps.foldl (stepPage maxChars) s).buffer).filter (fun c => !isSpace c) =
        contentOf (s.chunks.reverse) ++ s.buffer.filter (fun c => !isSpace c)
          ++ contentOf ps := by
    intro ps
    induction ps with
    | nil => intro s; simp [contentOf]
    | cons p ps2 ih =>
      intro s
      rw [List.foldl_cons, ih, stepPage_content, contentOf_cons]
      simp [List.append_assoc]
  have h := hfold pages ⟨[], []⟩
  simp only [List.reverse_nil, contentOf_nil, List.filter_nil, List.nil_append] at h
  rw [show build_chunks pages maxChars =
      (if (pages.foldl (stepPage maxChars) ⟨[], []⟩).buffer.isEmpty then
          (pages.foldl (stepPage maxChars) ⟨[], []⟩).chunks
        else
          packUnit maxChars (pages.foldl (stepPage maxChars) ⟨[], []⟩).chunks
            (pages.foldl (stepPage maxChars) ⟨[], []⟩).buffer).reverse from rfl]
  by_cases hbe : (pages.foldl (stepPage maxChars) ⟨[], []⟩).buffer.isEmpty
  · have hnil : (pages.foldl (stepPage maxChars) ⟨[], []⟩).buffer = [] :=
      List.isEmpty_iff.mp hbe
    rw [if_pos hbe]
    rw [hnil] at h
    simpa using h
  · rw [if_neg hbe, packUnit_content]
    exact h


/-! Section: Empty pages (C8): the page loop state and the no-op property -/

theorem build_chunks_eq (pages : List Text) (maxChars : Nat) :
    build_chunks pages maxChars =
      (if (pages.foldl (stepPage maxChars) ⟨[], []⟩).buffer.isEmpty then
          (pages.foldl (stepPage maxChars) ⟨[], []⟩).chunks
        else
          packUnit maxChars (pages.foldl (stepPage maxChars) ⟨[], []⟩).chunks
            (pages.foldl (stepPage maxChars) ⟨[], []⟩).buffer).reverse := rfl

theorem splitBlankAux_chain (t : Text) : ∀ (mode : Bool) (acc : Text),
    NoBlankRun acc.reverse →
    (∀ a, acc.head? = some a → ∀ b2, t.head? = some b2 → ¬(a = '\n' ∧ b2 = '\n')) →
    ∀ piece ∈ splitBlankAux mode t acc, NoBlankRun piece := by
  induction t with
  | nil =>
    intro mode acc hacc _ piece hp
    rw [show splitBlankAux mode [] acc = [acc.reverse] from rfl, List.mem_singleton] at hp
    subst hp
    exact hacc
  | cons c rest ih =>
    intro mode acc hacc hj piece hp
    rw [splitBlankAux_cons] at hp
    split at hp
    · next hskip =>
      have hc : c = '\n' := by
        have := (Bool.and_eq_true _ _).mp hskip
        simpa using this.2
      refine ih true acc hacc ?_ piece hp
      intro a ha b2 _ hcontra
      exact hj a ha c (by simp) ⟨hcontra.1, hc⟩
    · split at hp
      · rcases List.mem_cons.mp hp with heq | hp2
        · subst heq
          exact hacc
        · refine ih true [] List.chain'_nil ?_ piece hp2
          intro a ha
          simp at ha
      · next hcut =>
        have hnc : ¬(c = '\n' ∧ rest.head? = some '\n') := by
          intro hcontra
          exact hcut (by simp [hcontra.1, hcontra.2])
        refine ih false (c :: acc) ?_ ?_ piece hp
        · rw [List.reverse_cons]
          unfold NoBlankRun
          rw [List.chain'_append]
          refine ⟨hacc, List.chain'_singleton c, ?_⟩
          intro x hx y hy
          rw [List.getLast?_reverse] at hx
          have hyc : c = y := by simpa using hy
          intro hcontra
          exact hj x hx c (by simp) ⟨hcontra.1, hyc.trans hcontra.2⟩
        · intro a ha b2 hb2 hcontra
          have hac : a = c := by
            have h5 : c = a := by simpa using ha
            exact h5.symm
          subst hac
          rw [hcontra.2] at hb2
          exact hnc ⟨hcontra.1, hb2⟩

theorem strip_within (x : Text) : strip x <:+: x := by
  have h1 : strip x <:+ rstrip x := List.dropWhile_suffix isSpace
  have h2 : rstrip x <+: x := by
    have h3 : x.reverse.dropWhile isSpace <:+ x.reverse := List.dropWhile_suffix isSpace
    have h4 := List.reverse_prefix.mpr h3
    simpa using h4
  exact h1.isInfix.trans h2.isInfix

theorem split_paragraphs_wf (t : Text) :
    ∀ q ∈ split_paragraphs t, Trimmed q ∧ NoBlankRun q ∧ q ≠ [] := by
  intro q hq
  unfold split_paragraphs at hq
  obtain ⟨hq1, hq2⟩ := List.mem_filter.mp hq
  obtain ⟨piece, hpc, he⟩ := List.mem_map.mp hq1
  have hne : q ≠ [] := by simpa [List.isEmpty_iff] using hq2
  subst he
  refine ⟨trimmed_strip piece, ?_, hne⟩
  have hchain : NoBlankRun piece :=
    splitBlankAux_chain t false [] List.chain'_nil (by intro a ha; simp at ha) piece hpc
  exact List.Chain'.infix hchain (strip_within piece)

theorem trimmed_getLast_ne_nl (b : Text) (htr : Trimmed b) : b.getLast? ≠ some '\n' := by
  intro h
  have h2 := htr.2
  rw [h] at h2
  have h3 : isSpace '\n' = false := by simpa using h2
  exact absurd h3 (by decide)

theorem splitBlankAux_through (b : Text) (hb : NoBlankRun b)
    (hlast : b.getLast? ≠ some '\n') :
    ∀ (acc rest : Text), splitBlankAux false (b ++ '\n' :: '\n' :: rest) acc =
      (acc.reverse ++ b) :: splitBlankAux true rest [] := by
  induction b with
  | nil =>
    intro acc rest
    rw [List.nil_append, splitBlankAux_cons]
    simp
    rw [splitBlankAux_cons]
    simp
  | cons c b2 ih =>
    intro acc rest
    rw [List.cons_append, splitBlankAux_cons]
    have hcond : ¬((c = '\n' && (b2 ++ '\n' :: '\n' :: rest).head? = some '\n') = true) := by
      cases b2 with
      | nil =>
        have hcn : c ≠ '\n' := by
          intro hc
          exact hlast (by simp [hc])
        simp [hcn]
      | cons d b3 =>
        intro hcontra
        have hcc := (Bool.and_eq_true _ _).mp hcontra
        have hc : c = '\n' := by simpa using hcc.1
        have hd : d = '\n' := by
          have : (d :: b3 ++ '\n' :: '\n' :: rest).head? = some '\n' := by simpa using hcc.2
          simpa using this
        have hpair := List.chain'_cons.mp hb
        exact hpair.1 ⟨hc, hd⟩
    rw [if_neg (by simp), if_neg hcond]
    have hb2 : NoBlankRun b2 := List.Chain'.tail hb
    have hlast2 : b2.getLast? ≠ some '\n' := by
      cases b2 with
      | nil => simp
      | cons d b3 =>
        rw [← List.getLast?_cons_cons (a := c)]
        exact hlast
    rw [ih hb2 hlast2 (c :: acc) rest]
    rw [List.reverse_cons, List.append_assoc]
    rfl

theorem split_paragraphs_buffer_sep (b : Text) (hb : NoBlankRun b) (htr : Trimmed b)
    (hne : b ≠ []) : split_paragraphs (b ++ paraSep ++ []) = [b] := by
  have h1 : b ++ paraSep ++ [] = b ++ '\n' :: '\n' :: ([] : Text) := by simp [paraSep]
  rw [h1]
  unfold split_paragraphs
  rw [splitBlankAux_through b hb (trimmed_getLast_ne_nl b htr) [] []]
  rw [show splitBlankAux true [] [] = [[]] from rfl]
  simp [strip_eq_self b htr, List.isEmpty_iff, hne]
  rfl

theorem stepPage_empty_page (maxc : Nat) (s : ChunkState) (hne : s.buffer ≠ [])
    (htr : Trimmed s.buffer) (hnb : NoBlankRun s.buffer) :
    stepPage maxc s [] = s := by
  rw [stepPage_eq]
  have hbe : ¬(s.buffer.isEmpty = true) := fun h => hne (List.isEmpty_iff.mp h)
  rw [if_neg hbe]
  rw [split_paragraphs_buffer_sep s.buffer hnb htr hne]
  simp

theorem stepPage_buffer_wf (maxc : Nat) (s : ChunkState) (t : Text) :
    (stepPage maxc s t).buffer = []
    ∨ (Trimmed (stepPage maxc s t).buffer ∧ NoBlankRun (stepPage maxc s t).buffer
        ∧ (stepPage maxc s t).buffer ≠ []) := by
  rw [stepPage_eq]
  cases hL : split_paragraphs
      (if s.buffer.isEmpty then t else s.buffer ++ paraSep ++ t) with
  | nil => left; rfl
  | cons q qs =>
    right
    simp only [List.isEmpty_cons, Bool.false_eq_true, if_false]
    have hlast : ((q :: qs).getLastD []) ∈ (q :: qs) := by
      rw [List.getLastD_eq_getLast?, List.getLast?_eq_getLast (q :: qs) (by simp)]
      exact List.getLast_mem _
    have hwf := split_paragraphs_wf
      (if s.buffer.isEmpty then t else s.buffer ++ paraSep ++ t)
      ((q :: qs).getLastD []) (by rw [hL]; exact hlast)
    exact ⟨hwf.1, hwf.2.1, hwf.2.2⟩

theorem foldl_buffer_wf (maxc : Nat) (ps : List Text) :
    ∀ s : ChunkState,
      (s.buffer = [] ∨ (Trimmed s.buffer ∧ NoBlankRun s.buffer ∧ s.buffer ≠ [])) →
      ((ps.foldl (stepPage maxc) s).buffer = []
        ∨ (Trimmed (ps.foldl (stepPage maxc) s).buffer
            ∧ NoBlankRun (ps.foldl (stepPage maxc) s).buffer
            ∧ (ps.foldl (stepPage maxc) s).buffer ≠ [])) := by
  induction ps with
  | nil => exact fun s hs => hs
  | cons p ps2 ih =>
    intro s _
    rw [List.foldl_cons]
    exact ih _ (stepPage_buffer_wf maxc s p)

/-- Claim C8 (amended, proved).  An empty page is a no-op — the chunk
sequence equals that of the input with the empty page removed — whenever
the carry buffer is non-empty when the empty page is reached (i.e. some
earlier page contributed a paragraph).  The counterexample shows the claim
fails when the empty page comes first. -/
theorem c8_empty_page_noop (maxChars : Nat) (ps qs : List Text)
    (h : (ps.foldl (stepPage maxChars) ⟨[], []⟩).buffer ≠ []) :
    build_chunks (ps ++ [] :: qs) maxChars = build_chunks (ps ++ qs) maxChars := by
  have hwf := foldl_buffer_wf maxChars ps ⟨[], []⟩ (Or.inl rfl)
  rcases hwf with h0 | ⟨htr, hnb, hne⟩
  · exact absurd h0 h
  · have key : (ps ++ [] :: qs).foldl (stepPage maxChars) ⟨[], []⟩ =
        (ps ++ qs).foldl (stepPage maxChars) ⟨[], []⟩ := by
      rw [List.foldl_append, List.foldl_append, List.foldl_cons,
        stepPage_empty_page maxChars _ hne htr hnb]
    rw [build_chunks_eq, build_chunks_eq, key]

theorem c8_empty_page_noop_witness :
    (["Hello".toList].foldl (stepPage 5) ⟨[], []⟩).buffer ≠ []
    ∧ build_chunks ["Hello".toList, []] 5 = build_chunks ["Hello".toList] 5 :=
  ⟨by decide, c8_empty_page_noop 5 ["Hello".toList] [] (by decide)⟩

end SnowChunk
